import Mathlib

namespace Uchan

/-- List indexing with a fallback value, mirroring C array access data[i]. -/
def nthD {α : Type} : List α → Nat → α → α
  | [], _, d => d
  | a :: _, 0, _ => a
  | _ :: l, i + 1, d => nthD l i d

theorem nthD_append_left {α : Type} (l₁ l₂ : List α) (i : Nat) (d : α) (h : i < l₁.length) :
    nthD (l₁ ++ l₂) i d = nthD l₁ i d := by
  induction l₁ generalizing i with
  | nil => simp at h
  | cons a l ih =>
    cases i with
    | zero => rfl
    | succ j =>
      simp only [List.length_cons] at h
      exact ih j (by omega)

theorem nthD_append_right {α : Type} (l₁ l₂ : List α) (i : Nat) (d : α) (h : l₁.length ≤ i) :
    nthD (l₁ ++ l₂) i d = nthD l₂ (i - l₁.length) d := by
  induction l₁ generalizing i with
  | nil => simp [nthD]
  | cons a l ih =>
    cases i with
    | zero => simp at h
    | succ j =>
      simp only [List.length_cons] at h ⊢
      have := ih j (by omega)
      simpa [nthD] using this

theorem nthD_drop {α : Type} (l : List α) (m i : Nat) (d : α) :
    nthD (l.drop m) i d = nthD l (m + i) d := by
  induction l generalizing m with
  | nil => simp [nthD]
  | cons a l ih =>
    cases m with
    | zero => simp
    | succ k =>
      simp only [List.drop_succ_cons]
      rw [ih k]
      simp [nthD, Nat.succ_add]

theorem nthD_take {α : Type} (l : List α) (m i : Nat) (d : α) (h : i < m) :
    nthD (l.take m) i d = nthD l i d := by
  induction l generalizing m i with
  | nil => simp [nthD]
  | cons a l ih =>
    cases m with
    | zero => omega
    | succ k =>
      cases i with
      | zero => rfl
      | succ j =>
        simp only [List.take_succ_cons]
        exact ih k j (by omega)

theorem nthD_set_eq {α : Type} (l : List α) (i : Nat) (a d : α) (h : i < l.length) :
    nthD (l.set i a) i d = a := by
  induction l generalizing i with
  | nil => simp at h
  | cons b l ih =>
    cases i with
    | zero => rfl
    | succ j =>
      simp only [List.length_cons] at h
      exact ih j (by omega)

theorem nthD_set_ne {α : Type} (l : List α) (i j : Nat) (a d : α) (h : i ≠ j) :
    nthD (l.set i a) j d = nthD l j d := by
  induction l generalizing i j with
  | nil => rfl
  | cons b l ih =>
    cases i with
    | zero =>
      cases j with
      | zero => omega
      | succ k => rfl
    | succ i' =>
      cases j with
      | zero => rfl
      | succ k => exact ih i' k (by omega)

theorem ext_nthD {α : Type} (l₁ l₂ : List α) (d : α) (hlen : l₁.length = l₂.length)
    (h : ∀ i, i < l₁.length → nthD l₁ i d = nthD l₂ i d) : l₁ = l₂ := by
  induction l₁ generalizing l₂ with
  | nil =>
    cases l₂ with
    | nil => rfl
    | cons b l => simp at hlen
  | cons a l ih =>
    cases l₂ with
    | nil => simp at hlen
    | cons b l' =>
      have h0 := h 0 (by simp)
      simp only [nthD] at h0
      subst h0
      simp only [List.length_cons] at hlen
      have := ih l' (by omega) (fun i hi => h (i + 1) (by simp only [List.length_cons]; omega))
      rw [this]

theorem nthD_cons_self {α : Type} (l : List α) (d : α) (h : 0 < l.length) :
    l = nthD l 0 d :: l.drop 1 := by
  cases l with
  | nil => simp at h
  | cons a l => rfl

/-! ## The queue (vqueue.c)

`VQueue` mirrors `struct VQueue`: capacity, length, head (next read),
tail (next write) and the data array, modelled as a list of length `cap`.
Uninitialized slots (from `xmalloc`) are modelled as `default`. -/

/-- Initial capacity of a queue (vqueue.c, `#define INITIAL_CAP 512`). -/
def INITIAL_CAP : Nat := 512

structure VQueue (α : Type) where
  cap : Nat
  len : Nat
  head : Nat
  tail : Nat
  data : List α
deriving DecidableEq

variable {α : Type} [Inhabited α]

/-- `vqueue_new` (vqueue.c lines 27-32): `xcalloc` zeroes all fields, then
cap = INITIAL_CAP and a fresh data array of INITIAL_CAP slots. -/
def vqueue_new : VQueue α :=
  ⟨INITIAL_CAP, 0, 0, 0, List.replicate INITIAL_CAP default⟩

/-- `vqueue_empty` (vqueue.c lines 102-105): `q->len <= 0`. -/
def vqueue_empty (q : VQueue α) : Bool :=
  decide (q.len ≤ 0)

/-- `vqueue_len` (vqueue.c lines 108-111). -/
def vqueue_len (q : VQueue α) : Nat :=
  q.len

/-- The grow step of `vqueue_put` (vqueue.c lines 43-61): double the capacity,
copy data[h..n) then data[0..t) to the front of the new buffer, head=0,
tail=old capacity. The tail of the new `xmalloc` buffer is uninitialized,
modelled as `default` padding. -/
def vqueue_grow (q : VQueue α) : VQueue α :=
  let n := q.cap
  let h := q.head
  let t := q.tail
  let newData := q.data.drop h ++ q.data.take t ++
    List.replicate (2 * n - ((n - h) + t)) (default : α)
  ⟨2 * n, q.len, 0, n, newData⟩

/-- The insertion step of `vqueue_put` (vqueue.c lines 62-64):
data[tail] = x; len++; tail = (tail + 1) % cap. -/
def vqueue_insert (q : VQueue α) (x : α) : VQueue α :=
  ⟨q.cap, q.len + 1, q.head, (q.tail + 1) % q.cap, q.data.set q.tail x⟩

/-- `vqueue_put` (vqueue.c lines 41-65): grow when len == cap, then insert. -/
def vqueue_put (q : VQueue α) (x : α) : VQueue α :=
  vqueue_insert (if q.len = q.cap then vqueue_grow q else q) x

/-- The shrink step of `vqueue_get` (vqueue.c lines 74-97): cap_new = n/2
bumped up to INITIAL_CAP, re-linearize the live items to index 0 (two code
paths: linear h ≤ t and wrapped h > t), head=0, tail=len. -/
def vqueue_shrink (q : VQueue α) : VQueue α :=
  let n := q.cap
  let h := q.head
  let t := q.tail
  let cap_new := if n / 2 < INITIAL_CAP then INITIAL_CAP else n / 2
  let newData :=
    if h ≤ t then
      (q.data.drop h).take (t - h) ++ List.replicate (cap_new - (t - h)) (default : α)
    else
      q.data.drop h ++ q.data.take t ++
        List.replicate (cap_new - ((n - h) + t)) (default : α)
  ⟨cap_new, q.len, 0, q.len, newData⟩

/-- `vqueue_get` (vqueue.c lines 68-99), meaningful on non-empty queues:
x = data[head]; len--; head = (head+1) % cap; then shrink when
cap > INITIAL_CAP and len < cap/4. Returns (x, new queue state). -/
def vqueue_get (q : VQueue α) : α × VQueue α :=
  let x := nthD q.data q.head default
  let q1 : VQueue α := ⟨q.cap, q.len - 1, (q.head + 1) % q.cap, q.tail, q.data⟩
  (x, if INITIAL_CAP < q1.cap ∧ q1.len < q1.cap / 4 then vqueue_shrink q1 else q1)

/-- `vqueue_get`, with the `require("not empty", !vqueue_empty(q))` contract
check made explicit: panics (Except.error) on an empty queue, before any
mutation. -/
def vqueue_get_checked (q : VQueue α) : Except String (α × VQueue α) :=
  if vqueue_empty q then .error "not empty" else .ok (vqueue_get q)

/-- The structural invariant of a queue: capacity at least INITIAL_CAP,
length at most capacity, head and tail inside the buffer, tail at logical
offset `len` after head (mod cap), data array of length cap. -/
def Inv (q : VQueue α) : Prop :=
  INITIAL_CAP ≤ q.cap ∧ q.len ≤ q.cap ∧ q.head < q.cap ∧ q.tail < q.cap ∧
    q.tail = (q.head + q.len) % q.cap ∧ q.data.length = q.cap

instance (q : VQueue α) : Decidable (Inv q) := by
  unfold Inv
  infer_instance

/-- The logical FIFO content of a queue: the `len` slots starting at `head`,
wrapping modulo `cap`. -/
def VQueue.toList (q : VQueue α) : List α :=
  (List.range q.len).map (fun i => nthD q.data ((q.head + i) % q.cap) default)

theorem toList_length (q : VQueue α) : q.toList.length = q.len := by
  simp [VQueue.toList]

theorem nthD_map_range {β : Type} (f : Nat → β) (n i : Nat) (d : β) (h : i < n) :
    nthD ((List.range n).map f) i d = f i := by
  induction n with
  | zero => omega
  | succ k ih =>
    rw [List.range_succ, List.map_append]
    by_cases hik : i < k
    · rw [nthD_append_left _ _ _ _ (by simp; omega)]
      exact ih hik
    · have hik' : i = k := by omega
      subst hik'
      rw [nthD_append_right _ _ _ _ (by simp)]
      simp [nthD]

theorem toList_nthD (q : VQueue α) (i : Nat) (d : α) (h : i < q.len) :
    nthD q.toList i d = nthD q.data ((q.head + i) % q.cap) default := by
  unfold VQueue.toList
  exact nthD_map_range _ _ _ _ h

theorem add_mod_inj (n h a b : Nat) (ha : a < n) (hb : b < n)
    (hab : (h + a) % n = (h + b) % n) : a = b := by
  have h1 : a % n = b % n := Nat.ModEq.add_left_cancel' h hab
  rwa [Nat.mod_eq_of_lt ha, Nat.mod_eq_of_lt hb] at h1

/-- Indexing into the re-linearized copy `data[h..n) ++ data[0..t)` used by
both the grow and the wrapped shrink paths. -/
theorem wrap_copy_nthD (d : List α) (h t n i : Nat) (hd : d.length = n)
    (hh : h < n) (htn : t ≤ n) (hi : i < (n - h) + t) :
    nthD (d.drop h ++ d.take t) i default = nthD d ((h + i) % n) default := by
  by_cases hcase : i < n - h
  · rw [nthD_append_left _ _ _ _ (by simp [hd]; omega)]
    rw [nthD_drop]
    rw [Nat.mod_eq_of_lt (by omega)]
  · rw [nthD_append_right _ _ _ _ (by simp [hd]; omega)]
    have hlen : (d.drop h).length = n - h := by simp [hd]
    rw [hlen]
    rw [nthD_take _ _ _ _ (by omega)]
    have h1 : (h + i) % n = (h + i - n) % n := Nat.mod_eq_sub_mod (by omega)
    rw [h1, Nat.mod_eq_of_lt (by omega)]
    congr 1
    omega

theorem insert_spec (q : VQueue α) (x : α) (hInv : Inv q) (hlt : q.len < q.cap) :
    Inv (vqueue_insert q x) ∧ (vqueue_insert q x).toList = q.toList ++ [x] := by
  obtain ⟨hcap, hlen, hhead, htail, hte, hdata⟩ := hInv
  have hn : 0 < q.cap := by omega
  constructor
  · refine ⟨by simpa [vqueue_insert] using hcap, ?_, ?_, ?_, ?_, ?_⟩
    · simpa [vqueue_insert] using hlt
    · simpa [vqueue_insert] using hhead
    · exact Nat.mod_lt _ hn
    · show (q.tail + 1) % q.cap = (q.head + (q.len + 1)) % q.cap
      rw [hte, Nat.mod_add_mod, Nat.add_assoc]
    · simp [vqueue_insert, hdata]
  · apply ext_nthD _ _ default
    · simp [toList_length, vqueue_insert]
    · intro i hi
      rw [toList_length] at hi
      have hi' : i < q.len + 1 := hi
      rw [toList_nthD _ _ _ hi]
      simp only [vqueue_insert]
      by_cases hil : i < q.len
      · rw [nthD_append_left _ _ _ _ (by rw [toList_length]; exact hil)]
        rw [toList_nthD _ _ _ hil]
        rw [nthD_set_ne]
        rw [hte]
        intro hcontra
        have := add_mod_inj q.cap q.head q.len i (by omega) (by omega) hcontra
        omega
      · have hieq : i = q.len := by omega
        subst hieq
        rw [nthD_append_right _ _ _ _ (by rw [toList_length])]
        rw [toList_length, Nat.sub_self, ← hte, nthD_set_eq _ _ _ _ (by omega)]
        rfl

theorem grow_fields (q : VQueue α) :
    (vqueue_grow q).cap = 2 * q.cap ∧ (vqueue_grow q).len = q.len ∧
      (vqueue_grow q).head = 0 ∧ (vqueue_grow q).tail = q.cap := by
  refine ⟨rfl, rfl, rfl, rfl⟩

theorem grow_spec (q : VQueue α) (hInv : Inv q) (hfull : q.len = q.cap) :
    Inv (vqueue_grow q) ∧ (vqueue_grow q).toList = q.toList := by
  obtain ⟨hcap, hlen, hhead, htail, hte, hdata⟩ := hInv
  have hn : 0 < q.cap := by omega
  have hth : q.tail = q.head := by
    rw [hte, hfull, Nat.add_mod_right, Nat.mod_eq_of_lt hhead]
  have hndlen : (vqueue_grow q).data.length = 2 * q.cap := by
    simp only [vqueue_grow, List.length_append, List.length_drop,
      List.length_take, List.length_replicate, hdata]
    omega
  constructor
  · refine ⟨by show INITIAL_CAP ≤ 2 * q.cap; omega, ?_, ?_, ?_, ?_, hndlen⟩
    · show q.len ≤ 2 * q.cap
      omega
    · show 0 < 2 * q.cap
      omega
    · show q.cap < 2 * q.cap
      omega
    · show q.cap = (0 + q.len) % (2 * q.cap)
      rw [Nat.zero_add, hfull, Nat.mod_eq_of_lt (by omega)]
  · apply ext_nthD _ _ default
    · rw [toList_length, toList_length]
      rfl
    · intro i hi
      rw [toList_length] at hi
      have hi' : i < q.len := hi
      rw [toList_nthD _ _ _ hi, toList_nthD _ _ _ hi']
      show nthD (q.data.drop q.head ++ q.data.take q.tail ++
          List.replicate (2 * q.cap - ((q.cap - q.head) + q.tail)) default)
          ((0 + i) % (2 * q.cap)) default
        = nthD q.data ((q.head + i) % q.cap) default
      rw [Nat.zero_add, Nat.mod_eq_of_lt (by omega)]
      rw [nthD_append_left _ _ _ _
        (by simp only [List.length_append, List.length_drop, List.length_take, hdata]
            omega)]
      exact wrap_copy_nthD q.data q.head q.tail q.cap i hdata hhead (by omega) (by omega)

theorem put_spec (q : VQueue α) (x : α) (hInv : Inv q) :
    Inv (vqueue_put q x) ∧ (vqueue_put q x).toList = q.toList ++ [x] := by
  by_cases hfull : q.len = q.cap
  · have hg := grow_spec q hInv hfull
    have hlt : (vqueue_grow q).len < (vqueue_grow q).cap := by
      show q.len < 2 * q.cap
      have := hInv.1
      simp only [INITIAL_CAP] at this
      omega
    have hins := insert_spec (vqueue_grow q) x hg.1 hlt
    unfold vqueue_put
    rw [if_pos hfull]
    exact ⟨hins.1, by rw [hins.2, hg.2]⟩
  · have hlt : q.len < q.cap := by
      have := hInv.2.1
      omega
    have hins := insert_spec q x hInv hlt
    unfold vqueue_put
    rw [if_neg hfull]
    exact hins

theorem shrink_spec (q : VQueue α) (hInv : Inv q) (hcap : INITIAL_CAP < q.cap)
    (hsmall : q.len < q.cap / 4) :
    Inv (vqueue_shrink q) ∧ (vqueue_shrink q).toList = q.toList ∧
      (vqueue_shrink q).cap = max (q.cap / 2) INITIAL_CAP ∧
      (vqueue_shrink q).head = 0 ∧ (vqueue_shrink q).tail = q.len ∧
      (vqueue_shrink q).len = q.len := by
  obtain ⟨hcap0, hlen, hhead, htail, hte, hdata⟩ := hInv
  have hn : 0 < q.cap := by omega
  have hq4 : q.cap / 4 ≤ q.cap / 2 := Nat.div_le_div_left (by omega) (by omega)
  set m := if q.cap / 2 < INITIAL_CAP then INITIAL_CAP else q.cap / 2 with hm
  have hm_max : m = max (q.cap / 2) INITIAL_CAP := by
    rw [hm]
    split
    · omega
    · omega
  have hm_ge : INITIAL_CAP ≤ m := by rw [hm_max]; omega
  have hm_ge2 : q.cap / 2 ≤ m := by rw [hm_max]; omega
  have hlm : q.len < m := by omega
  have hlen_lt : q.len < q.cap := by omega
  by_cases hlay : q.head ≤ q.tail
  · -- linear layout: tail = head + len without wrap
    have hnowrap : q.head + q.len < q.cap := by
      by_contra hge
      push_neg at hge
      have h1 : q.tail = q.head + q.len - q.cap := by
        rw [hte, Nat.mod_eq_sub_mod hge, Nat.mod_eq_of_lt (by omega)]
      omega
    have ht_eq : q.tail = q.head + q.len := by
      rw [hte, Nat.mod_eq_of_lt hnowrap]
    have hsq : vqueue_shrink q = ⟨m, q.len, 0, q.len,
        (q.data.drop q.head).take (q.tail - q.head) ++
          List.replicate (m - (q.tail - q.head)) default⟩ := by
      simp only [vqueue_shrink, ← hm]
      rw [if_pos hlay]
    rw [hsq]
    have hdlen : ((q.data.drop q.head).take (q.tail - q.head) ++
        List.replicate (m - (q.tail - q.head)) default).length = m := by
      simp only [List.length_append, List.length_take, List.length_drop,
        List.length_replicate, hdata]
      omega
    have hInv' : Inv (⟨m, q.len, 0, q.len,
        (q.data.drop q.head).take (q.tail - q.head) ++
          List.replicate (m - (q.tail - q.head)) default⟩ : VQueue α) := by
      refine ⟨hm_ge, by show q.len ≤ m; omega, by show (0:Nat) < m; omega,
        by show q.len < m; omega, ?_, hdlen⟩
      show q.len = (0 + q.len) % m
      rw [Nat.zero_add, Nat.mod_eq_of_lt hlm]
    refine ⟨hInv', ?_, hm_max, rfl, rfl, rfl⟩
    apply ext_nthD _ _ default
    · rw [toList_length, toList_length]
    · intro i hi
      rw [toList_length] at hi
      have hi' : i < q.len := hi
      rw [toList_nthD _ _ _ hi, toList_nthD _ _ _ hi']
      show nthD ((q.data.drop q.head).take (q.tail - q.head) ++
          List.replicate (m - (q.tail - q.head)) default) ((0 + i) % m) default
        = nthD q.data ((q.head + i) % q.cap) default
      rw [Nat.zero_add, Nat.mod_eq_of_lt (by omega)]
      rw [nthD_append_left _ _ _ _
        (by simp only [List.length_take, List.length_drop, hdata]; omega)]
      rw [nthD_take _ _ _ _ (by omega), nthD_drop]
      rw [Nat.mod_eq_of_lt (by omega)]
  · -- wrapped layout: head > tail
    push_neg at hlay
    have hwrap : q.cap ≤ q.head + q.len := by
      by_contra hlt2
      push_neg at hlt2
      have : q.tail = q.head + q.len := by rw [hte, Nat.mod_eq_of_lt hlt2]
      omega
    have ht_eq : q.tail = q.head + q.len - q.cap := by
      rw [hte, Nat.mod_eq_sub_mod hwrap, Nat.mod_eq_of_lt (by omega)]
    have hsum : (q.cap - q.head) + q.tail = q.len := by omega
    have hsq : vqueue_shrink q = ⟨m, q.len, 0, q.len,
        q.data.drop q.head ++ q.data.take q.tail ++
          List.replicate (m - ((q.cap - q.head) + q.tail)) default⟩ := by
      simp only [vqueue_shrink, ← hm]
      rw [if_neg (by omega)]
    rw [hsq]
    have hdlen : (q.data.drop q.head ++ q.data.take q.tail ++
        List.replicate (m - ((q.cap - q.head) + q.tail)) default).length = m := by
      simp only [List.length_append, List.length_take, List.length_drop,
        List.length_replicate, hdata]
      omega
    have hInv' : Inv (⟨m, q.len, 0, q.len,
        q.data.drop q.head ++ q.data.take q.tail ++
          List.replicate (m - ((q.cap - q.head) + q.tail)) default⟩ : VQueue α) := by
      refine ⟨hm_ge, by show q.len ≤ m; omega, by show (0:Nat) < m; omega,
        by show q.len < m; omega, ?_, hdlen⟩
      show q.len = (0 + q.len) % m
      rw [Nat.zero_add, Nat.mod_eq_of_lt hlm]
    refine ⟨hInv', ?_, hm_max, rfl, rfl, rfl⟩
    apply ext_nthD _ _ default
    · rw [toList_length, toList_length]
    · intro i hi
      rw [toList_length] at hi
      have hi' : i < q.len := hi
      rw [toList_nthD _ _ _ hi, toList_nthD _ _ _ hi']
      show nthD (q.data.drop q.head ++ q.data.take q.tail ++
          List.replicate (m - ((q.cap - q.head) + q.tail)) default)
          ((0 + i) % m) default
        = nthD q.data ((q.head + i) % q.cap) default
      rw [Nat.zero_add, Nat.mod_eq_of_lt (by omega)]
      rw [nthD_append_left _ _ _ _
        (by simp only [List.length_append, List.length_take, List.length_drop, hdata]
            omega)]
      exact wrap_copy_nthD q.data q.head q.tail q.cap i hdata hhead (by omega) (by omega)

theorem get_spec (q : VQueue α) (hInv : Inv q) (hne : 0 < q.len) :
    (vqueue_get q).1 = nthD q.data q.head default ∧
      Inv (vqueue_get q).2 ∧
      (vqueue_get q).2.len = q.len - 1 ∧
      (vqueue_get q).2.toList = q.toList.drop 1 ∧
      ((INITIAL_CAP < q.cap ∧ q.len - 1 < q.cap / 4) →
        ((vqueue_get q).2.cap = max (q.cap / 2) INITIAL_CAP ∧
          (vqueue_get q).2.head = 0 ∧ (vqueue_get q).2.tail = q.len - 1)) ∧
      (¬(INITIAL_CAP < q.cap ∧ q.len - 1 < q.cap / 4) →
        (vqueue_get q).2.cap = q.cap) := by
  obtain ⟨hcap, hlen, hhead, htail, hte, hdata⟩ := hInv
  have hn : 0 < q.cap := by omega
  set q1 : VQueue α := ⟨q.cap, q.len - 1, (q.head + 1) % q.cap, q.tail, q.data⟩ with hq1
  have hInv1 : Inv q1 := by
    refine ⟨hcap, by show q.len - 1 ≤ q.cap; omega, Nat.mod_lt _ hn,
      htail, ?_, hdata⟩
    show q.tail = ((q.head + 1) % q.cap + (q.len - 1)) % q.cap
    rw [Nat.mod_add_mod, hte]
    congr 1
    omega
  have htl1 : q1.toList = q.toList.drop 1 := by
    apply ext_nthD _ _ default
    · rw [toList_length, List.length_drop, toList_length]
    · intro i hi
      rw [toList_length] at hi
      have hi1 : i < q1.len := hi
      have hi' : i < q.len - 1 := hi1
      rw [toList_nthD _ _ _ hi1, nthD_drop, toList_nthD _ _ _ (by omega)]
      show nthD q.data (((q.head + 1) % q.cap + i) % q.cap) default
        = nthD q.data ((q.head + (1 + i)) % q.cap) default
      rw [Nat.mod_add_mod]
      congr 2
      omega
  have hfst : (vqueue_get q).1 = nthD q.data q.head default := rfl
  have hsnd : (vqueue_get q).2 =
      if INITIAL_CAP < q1.cap ∧ q1.len < q1.cap / 4 then vqueue_shrink q1 else q1 := rfl
  by_cases hcond : INITIAL_CAP < q.cap ∧ q.len - 1 < q.cap / 4
  · have hcond1 : INITIAL_CAP < q1.cap ∧ q1.len < q1.cap / 4 := hcond
    have hs := shrink_spec q1 hInv1 hcond.1 hcond.2
    have hsnd' : (vqueue_get q).2 = vqueue_shrink q1 := by
      rw [hsnd, if_pos hcond1]
    refine ⟨hfst, ?_, ?_, ?_, ?_, ?_⟩
    · rw [hsnd']; exact hs.1
    · rw [hsnd', hs.2.2.2.2.2]
    · rw [hsnd', hs.2.1, htl1]
    · intro _
      rw [hsnd']
      exact ⟨hs.2.2.1, hs.2.2.2.1, hs.2.2.2.2.1⟩
    · intro hcontra
      exact absurd hcond hcontra
  · have hcond1 : ¬(INITIAL_CAP < q1.cap ∧ q1.len < q1.cap / 4) := hcond
    have hsnd' : (vqueue_get q).2 = q1 := by
      rw [hsnd, if_neg hcond1]
    refine ⟨hfst, ?_, ?_, ?_, ?_, ?_⟩
    · rw [hsnd']; exact hInv1
    · rw [hsnd']
    · rw [hsnd', htl1]
    · intro hc
      exact absurd hc hcond
    · intro _
      rw [hsnd']

theorem inv_new : Inv (vqueue_new (α := α)) := by
  refine ⟨le_refl _, ?_, ?_, ?_, ?_, ?_⟩
  · show (0:Nat) ≤ INITIAL_CAP
    omega
  · show (0:Nat) < INITIAL_CAP
    simp [INITIAL_CAP]
  · show (0:Nat) < INITIAL_CAP
    simp [INITIAL_CAP]
  · show (0:Nat) = (0 + 0) % INITIAL_CAP
    simp
  · show (List.replicate INITIAL_CAP (default : α)).length = INITIAL_CAP
    simp

theorem toList_new : (vqueue_new (α := α)).toList = [] := by
  simp [VQueue.toList, vqueue_new]

theorem get_fst_toList (q : VQueue α) (hInv : Inv q) (hne : 0 < q.len) :
    (vqueue_get q).1 = nthD q.toList 0 default := by
  rw [(get_spec q hInv hne).1, toList_nthD _ _ _ hne, Nat.add_zero,
    Nat.mod_eq_of_lt hInv.2.2.1]

theorem get_cons_toList (q : VQueue α) (hInv : Inv q) (hne : 0 < q.len) :
    q.toList = (vqueue_get q).1 :: (vqueue_get q).2.toList := by
  rw [get_fst_toList q hInv hne, (get_spec q hInv hne).2.2.2.1]
  exact nthD_cons_self _ _ (by rw [toList_length]; exact hne)

/-! ## Reachable queue states

A queue operation is a `put x` or a `get`; `runOps` applies a sequence of
operations to a queue, refusing (`none`) a `get` on an empty queue, so that
`runOps vqueue_new ops = some q` says exactly that `q` is reachable from a
fresh queue by puts and gets, with gets only on non-empty states. -/

inductive QOp (α : Type) where
  | put (x : α)
  | get
deriving DecidableEq

def runOps : VQueue α → List (QOp α) → Option (VQueue α)
  | q, [] => some q
  | q, QOp.put x :: ops => runOps (vqueue_put q x) ops
  | q, QOp.get :: ops =>
      if vqueue_empty q then none else runOps (vqueue_get q).2 ops

theorem runOps_inv (ops : List (QOp α)) (q q' : VQueue α) (hInv : Inv q)
    (h : runOps q ops = some q') : Inv q' := by
  induction ops generalizing q with
  | nil =>
    simp only [runOps] at h
    cases h
    exact hInv
  | cons op ops ih =>
    cases op with
    | put x =>
      exact ih (vqueue_put q x) (put_spec q x hInv).1 h
    | get =>
      simp only [runOps] at h
      by_cases hemp : vqueue_empty q
      · rw [if_pos hemp] at h
        cases h
      · rw [if_neg hemp] at h
        have hne : 0 < q.len := by
          simp only [vqueue_empty, decide_eq_true_eq] at hemp
          omega
        exact ih (vqueue_get q).2 (get_spec q hInv hne).2.1 h

/-- C4: every queue state reachable from a fresh queue by puts and gets
(gets only on non-empty states) has capacity at least the initial capacity
512 and length between 0 and the capacity. -/
theorem reachable_capacity_bounds (ops : List (QOp α)) (q : VQueue α)
    (h : runOps vqueue_new ops = some q) :
    INITIAL_CAP ≤ q.cap ∧ q.len ≤ q.cap := by
  have hInv := runOps_inv ops vqueue_new q inv_new h
  exact ⟨hInv.1, hInv.2.1⟩

/-- Witness for C4: a concrete reachable state (one put) satisfies the bounds. -/
theorem reachable_capacity_bounds_witness :
    runOps (vqueue_new (α := Nat)) [QOp.put 5] = some (vqueue_put vqueue_new 5) ∧
      (INITIAL_CAP ≤ (vqueue_put (vqueue_new (α := Nat)) 5).cap ∧
        (vqueue_put (vqueue_new (α := Nat)) 5).len ≤ (vqueue_put (vqueue_new (α := Nat)) 5).cap) :=
  ⟨rfl, reachable_capacity_bounds [QOp.put 5] _ rfl⟩

/-- C10: every reachable queue state keeps head and tail inside the buffer
with tail = (head + length) mod capacity; hence when length = capacity (the
grow branch of put) the head and tail indices coincide, which is the
assertion `head index equals tail index` in vqueue_put. -/
theorem reachable_index_invariants (ops : List (QOp α)) (q : VQueue α)
    (h : runOps vqueue_new ops = some q) :
    q.head < q.cap ∧ q.tail < q.cap ∧ q.tail = (q.head + q.len) % q.cap ∧
      (q.len = q.cap → q.head = q.tail) := by
  have hInv := runOps_inv ops vqueue_new q inv_new h
  obtain ⟨hcap, hlen, hhead, htail, hte, hdata⟩ := hInv
  refine ⟨hhead, htail, hte, ?_⟩
  intro hfull
  rw [hte, hfull, Nat.add_mod_right, Nat.mod_eq_of_lt hhead]

/-- Witness for C10: the index invariants at a concrete reachable state. -/
theorem reachable_index_invariants_witness :
    runOps (vqueue_new (α := Nat)) [QOp.put 3, QOp.get] =
        some (vqueue_get (vqueue_put vqueue_new 3)).2 ∧
      ((vqueue_get (vqueue_put (vqueue_new (α := Nat)) 3)).2.head <
          (vqueue_get (vqueue_put (vqueue_new (α := Nat)) 3)).2.cap ∧
        (vqueue_get (vqueue_put (vqueue_new (α := Nat)) 3)).2.tail <
          (vqueue_get (vqueue_put (vqueue_new (α := Nat)) 3)).2.cap ∧
        (vqueue_get (vqueue_put (vqueue_new (α := Nat)) 3)).2.tail =
          ((vqueue_get (vqueue_put (vqueue_new (α := Nat)) 3)).2.head +
            (vqueue_get (vqueue_put (vqueue_new (α := Nat)) 3)).2.len) %
            (vqueue_get (vqueue_put (vqueue_new (α := Nat)) 3)).2.cap ∧
        ((vqueue_get (vqueue_put (vqueue_new (α := Nat)) 3)).2.len =
            (vqueue_get (vqueue_put (vqueue_new (α := Nat)) 3)).2.cap →
          (vqueue_get (vqueue_put (vqueue_new (α := Nat)) 3)).2.head =
            (vqueue_get (vqueue_put (vqueue_new (α := Nat)) 3)).2.tail)) := by
  constructor
  · show (if vqueue_empty (vqueue_put (vqueue_new (α := Nat)) 3) then none
      else runOps (vqueue_get (vqueue_put vqueue_new 3)).2 []) =
      some (vqueue_get (vqueue_put vqueue_new 3)).2
    rfl
  · exact reachable_index_invariants [QOp.put 3, QOp.get] _ rfl

/-- Putting a whole sequence, one `vqueue_put` per element, front to back. -/
def putAll (q : VQueue α) (xs : List α) : VQueue α :=
  List.foldl vqueue_put q xs

/-- Popping `n` elements with `vqueue_get`, collecting them in order. -/
def getAll : VQueue α → Nat → List α × VQueue α
  | q, 0 => ([], q)
  | q, n + 1 =>
    let r := vqueue_get q
    let rest := getAll r.2 n
    (r.1 :: rest.1, rest.2)

theorem putAll_spec (xs : List α) (q : VQueue α) (hInv : Inv q) :
    Inv (putAll q xs) ∧ (putAll q xs).toList = q.toList ++ xs := by
  induction xs generalizing q with
  | nil => exact ⟨hInv, by simp [putAll]⟩
  | cons x xs ih =>
    have hp := put_spec q x hInv
    have := ih (vqueue_put q x) hp.1
    refine ⟨this.1, ?_⟩
    show (putAll (vqueue_put q x) xs).toList = q.toList ++ x :: xs
    rw [this.2, hp.2]
    simp

theorem getAll_toList (n : Nat) (q : VQueue α) (hInv : Inv q) (hn : q.len = n) :
    (getAll q n).1 = q.toList := by
  induction n generalizing q with
  | zero =>
    have : q.toList = [] := by
      have := toList_length q
      rw [hn] at this
      exact List.eq_nil_of_length_eq_zero this
    simp [getAll, this]
  | succ k ih =>
    have hne : 0 < q.len := by omega
    have hg := get_spec q hInv hne
    have hlen : (vqueue_get q).2.len = k := by rw [hg.2.2.1]; omega
    show (vqueue_get q).1 :: (getAll (vqueue_get q).2 k).1 = q.toList
    rw [ih _ hg.2.1 hlen]
    exact (get_cons_toList q hInv hne).symm

/-- C5: the queue round-trip: putting any finite sequence S into a fresh
queue and then popping |S| items returns exactly S, in order. -/
theorem queue_round_trip (S : List α) :
    (getAll (putAll vqueue_new S) S.length).1 = S := by
  have hp := putAll_spec S vqueue_new inv_new
  have htl : (putAll (vqueue_new (α := α)) S).toList = S := by
    rw [hp.2, toList_new]
    simp
  have hlen : (putAll (vqueue_new (α := α)) S).len = S.length := by
    rw [← toList_length, htl]
  rw [getAll_toList S.length _ hp.1 hlen, htl]

/-- C2: on a full queue (len = cap), put first grows: it doubles the
capacity, copies data[head..cap) then data[0..tail) to the front of the new
buffer, sets head = 0 and tail = old capacity, preserves the logical FIFO
sequence, and only then inserts x. -/
theorem put_grow_spec (q : VQueue α) (x : α) (hInv : Inv q) (hfull : q.len = q.cap) :
    vqueue_put q x = vqueue_insert (vqueue_grow q) x ∧
      (vqueue_grow q).cap = 2 * q.cap ∧
      (vqueue_grow q).head = 0 ∧
      (vqueue_grow q).tail = q.cap ∧
      (vqueue_grow q).data = q.data.drop q.head ++ q.data.take q.tail ++
        List.replicate (2 * q.cap - ((q.cap - q.head) + q.tail)) default ∧
      (vqueue_grow q).toList = q.toList ∧
      (vqueue_put q x).toList = q.toList ++ [x] := by
  refine ⟨by unfold vqueue_put; rw [if_pos hfull], rfl, rfl, rfl, rfl,
    (grow_spec q hInv hfull).2, (put_spec q x hInv).2⟩

set_option maxRecDepth 40000 in
/-- Witness for C2: inserting the 513th element into a full queue of
capacity 512 grows it to capacity 1024 with head = 0 and tail = 512. -/
theorem put_grow_spec_witness :
    Inv (⟨512, 512, 0, 0, List.replicate 512 0⟩ : VQueue Nat) ∧
      (⟨512, 512, 0, 0, List.replicate 512 0⟩ : VQueue Nat).len =
        (⟨512, 512, 0, 0, List.replicate 512 0⟩ : VQueue Nat).cap ∧
      (vqueue_grow (⟨512, 512, 0, 0, List.replicate 512 0⟩ : VQueue Nat)).cap = 1024 ∧
      (vqueue_grow (⟨512, 512, 0, 0, List.replicate 512 0⟩ : VQueue Nat)).head = 0 ∧
      (vqueue_grow (⟨512, 512, 0, 0, List.replicate 512 0⟩ : VQueue Nat)).tail = 512 := by
  refine ⟨by decide, rfl, ?_, ?_, ?_⟩
  · exact (put_grow_spec _ 7 (by decide) rfl).2.1
  · exact (put_grow_spec _ 7 (by decide) rfl).2.2.1
  · exact (put_grow_spec _ 7 (by decide) rfl).2.2.2.1

/-- C3: on a non-empty queue, get returns the element at head and decrements
the length; afterwards, if capacity > 512 and the new length < capacity/4,
the queue shrinks to max(capacity/2, 512) with head = 0 and tail = the new
length (both wrap layouts re-linearized); the capacity never drops below
512, and the logical FIFO sequence of the rest is preserved. -/
theorem get_shrink_spec (q : VQueue α) (hInv : Inv q) (hne : 0 < q.len) :
    (vqueue_get q).1 = nthD q.data q.head default ∧
      (vqueue_get q).1 = nthD q.toList 0 default ∧
      (vqueue_get q).2.len = q.len - 1 ∧
      (vqueue_get q).2.toList = q.toList.drop 1 ∧
      INITIAL_CAP ≤ (vqueue_get q).2.cap ∧
      ((INITIAL_CAP < q.cap ∧ q.len - 1 < q.cap / 4) →
        ((vqueue_get q).2.cap = max (q.cap / 2) INITIAL_CAP ∧
          (vqueue_get q).2.head = 0 ∧ (vqueue_get q).2.tail = q.len - 1)) ∧
      (¬(INITIAL_CAP < q.cap ∧ q.len - 1 < q.cap / 4) →
        (vqueue_get q).2.cap = q.cap) := by
  have hg := get_spec q hInv hne
  exact ⟨hg.1, get_fst_toList q hInv hne, hg.2.2.1, hg.2.2.2.1, hg.2.1.1,
    hg.2.2.2.2.1, hg.2.2.2.2.2⟩

set_option maxRecDepth 40000 in
/-- Witness for C3: get on a concrete one-element queue returns the head
element, leaves the rest, and keeps the capacity at 512. -/
theorem get_shrink_spec_witness :
    Inv (⟨512, 1, 0, 1, List.replicate 512 7⟩ : VQueue Nat) ∧
      0 < (⟨512, 1, 0, 1, List.replicate 512 7⟩ : VQueue Nat).len ∧
      (vqueue_get (⟨512, 1, 0, 1, List.replicate 512 7⟩ : VQueue Nat)).1 =
        nthD (⟨512, 1, 0, 1, List.replicate 512 7⟩ : VQueue Nat).data
          (⟨512, 1, 0, 1, List.replicate 512 7⟩ : VQueue Nat).head default ∧
      (vqueue_get (⟨512, 1, 0, 1, List.replicate 512 7⟩ : VQueue Nat)).2.len = 0 ∧
      INITIAL_CAP ≤ (vqueue_get (⟨512, 1, 0, 1, List.replicate 512 7⟩ : VQueue Nat)).2.cap := by
  refine ⟨by decide, by decide, ?_, ?_, ?_⟩
  · exact (get_shrink_spec _ (by decide) (by decide)).1
  · exact (get_shrink_spec _ (by decide) (by decide)).2.2.1
  · exact (get_shrink_spec _ (by decide) (by decide)).2.2.2.2.1

/-! ## The channel (uchan.c)

`UChan` mirrors `struct UChan`: the backing `VQueue` and the closed flag.
The mutex and condition variable serialize operations; the embedding gives
each channel operation as an atomic state transformation. Contract
violations that `panic_if` in C return `Except.error` (checked before any
mutation, as in the source). A blocking receive that would suspend forever
in a single-threaded execution (queue empty and channel open) is `none`. -/

structure UChan (α : Type) where
  queue : VQueue α
  closed : Bool
deriving DecidableEq

/-- `uchan_new` (uchan.c): a fresh open channel over a fresh queue. -/
def uchan_new : UChan α :=
  ⟨vqueue_new, false⟩

/-- `uchan_send` (uchan.c lines 90-105): panics if closed (before touching
the queue), otherwise enqueues x and broadcasts. -/
def uchan_send (ch : UChan α) (x : α) : Except String (UChan α) :=
  if ch.closed then .error "send on closed channel"
  else .ok ⟨vqueue_put ch.queue x, ch.closed⟩

/-- `uchan_close` (uchan.c lines 187-201): panics if already closed (before
mutating), otherwise sets the closed flag and broadcasts. -/
def uchan_close (ch : UChan α) : Except String (UChan α) :=
  if ch.closed then .error "close of closed channel"
  else .ok ⟨ch.queue, true⟩

/-- `uchan_len` (uchan.c lines 204-216). -/
def uchan_len (ch : UChan α) : Nat :=
  vqueue_len ch.queue

/-- `uchan_receive2` (uchan.c lines 113-140): while the queue is empty and
the channel is open, wait on the condition — with no concurrent sender this
blocks forever, modelled as `none`. Otherwise has_value = queue non-empty;
pop the front on true, else report (NULL, false). Returns
((value, has_value), new channel state). -/
def uchan_receive2 (ch : UChan α) : Option ((α × Bool) × UChan α) :=
  if vqueue_empty ch.queue && !ch.closed then none
  else if vqueue_empty ch.queue then some ((default, false), ch)
  else
    let r := vqueue_get ch.queue
    some ((r.1, true), ⟨r.2, ch.closed⟩)

/-- `uchan_receive2_noblock` (uchan.c lines 223-241): has_value = queue
non-empty; pop the front on true, else report (NULL, false). The closed
flag is never examined. -/
def uchan_receive2_noblock (ch : UChan α) : (α × Bool) × UChan α :=
  if vqueue_empty ch.queue then ((default, false), ch)
  else
    let r := vqueue_get ch.queue
    ((r.1, true), ⟨r.2, ch.closed⟩)

/-- Sending a whole sequence, one `uchan_send` per element. -/
def uchan_sendAll : UChan α → List α → Except String (UChan α)
  | ch, [] => .ok ch
  | ch, x :: xs =>
    match uchan_send ch x with
    | .ok ch' => uchan_sendAll ch' xs
    | .error e => .error e

/-- Performing `n` blocking receives in sequence, collecting the
(value, has_value) results; `none` as soon as one of them would block. -/
def uchan_receiveN : UChan α → Nat → Option (List (α × Bool) × UChan α)
  | ch, 0 => some ([], ch)
  | ch, n + 1 =>
    match uchan_receive2 ch with
    | none => none
    | some (r, ch') =>
      match uchan_receiveN ch' n with
      | none => none
      | some (rs, ch'') => some (r :: rs, ch'')

theorem sendAll_open (xs : List α) (q : VQueue α) :
    uchan_sendAll ⟨q, false⟩ xs = .ok ⟨putAll q xs, false⟩ := by
  induction xs generalizing q with
  | nil => rfl
  | cons x xs ih =>
    show uchan_sendAll ⟨vqueue_put q x, false⟩ xs = _
    rw [ih (vqueue_put q x)]
    rfl

theorem receiveN_drain_closed (n : Nat) (q : VQueue α) (hInv : Inv q)
    (hn : q.len = n) :
    ∃ chEnd : UChan α,
      uchan_receiveN ⟨q, true⟩ (n + 1) =
        some (q.toList.map (fun v => (v, true)) ++ [(default, false)], chEnd) := by
  induction n generalizing q with
  | zero =>
    have htl : q.toList = [] := by
      have := toList_length q
      rw [hn] at this
      exact List.eq_nil_of_length_eq_zero this
    refine ⟨⟨q, true⟩, ?_⟩
    have hemp : vqueue_empty q = true := by
      simp [vqueue_empty]
      omega
    show (match uchan_receive2 ⟨q, true⟩ with
      | none => none
      | some (r, ch') =>
        match uchan_receiveN ch' 0 with
        | none => none
        | some (rs, ch'') => some (r :: rs, ch'')) = _
    rw [show uchan_receive2 (⟨q, true⟩ : UChan α) = some ((default, false), ⟨q, true⟩) by
      unfold uchan_receive2
      simp [hemp]]
    simp [uchan_receiveN, htl]
  | succ k ih =>
    have hne : 0 < q.len := by omega
    have hemp : vqueue_empty q = false := by
      simp [vqueue_empty]
      omega
    have hg := get_spec q hInv hne
    obtain ⟨chEnd, hrec⟩ := ih (vqueue_get q).2 hg.2.1 (by rw [hg.2.2.1]; omega)
    refine ⟨chEnd, ?_⟩
    show (match uchan_receive2 ⟨q, true⟩ with
      | none => none
      | some (r, ch') =>
        match uchan_receiveN ch' (k + 1) with
        | none => none
        | some (rs, ch'') => some (r :: rs, ch'')) = _
    rw [show uchan_receive2 (⟨q, true⟩ : UChan α) =
        some (((vqueue_get q).1, true), ⟨(vqueue_get q).2, true⟩) by
      unfold uchan_receive2
      simp [hemp]]
    dsimp only
    rw [hrec]
    have hcons := get_cons_toList q hInv hne
    rw [hcons]
    simp

/-- C6: drain preservation: sending v₁..vₖ on a fresh channel and then
closing it succeeds, and k+1 blocking receives then yield
(v₁,true), …, (vₖ,true), (null,false) in order; every one of those k+1
receives returns a result instead of blocking (the result is `some …`,
never the blocked `none`), in particular the final one. -/
theorem drain_preservation (vs : List α) :
    ∃ ch1 ch2 chEnd : UChan α,
      uchan_sendAll uchan_new vs = .ok ch1 ∧
      uchan_close ch1 = .ok ch2 ∧
      uchan_receiveN ch2 (vs.length + 1) =
        some (vs.map (fun v => (v, true)) ++ [(default, false)], chEnd) := by
  refine ⟨⟨putAll vqueue_new vs, false⟩, ⟨putAll vqueue_new vs, true⟩, ?_⟩
  have hsend := sendAll_open vs (vqueue_new (α := α))
  have hp := putAll_spec vs vqueue_new inv_new
  have htl : (putAll (vqueue_new (α := α)) vs).toList = vs := by
    rw [hp.2, toList_new]
    simp
  have hlen : (putAll (vqueue_new (α := α)) vs).len = vs.length := by
    rw [← toList_length, htl]
  obtain ⟨chEnd, hrec⟩ := receiveN_drain_closed vs.length _ hp.1 hlen
  rw [htl] at hrec
  exact ⟨chEnd, hsend, rfl, hrec⟩

/-- C9: the non-blocking receive pops the front element and returns
(value, true) when the backing queue is non-empty; on an empty queue it
returns (null, false) and leaves the state unchanged; and its result and
effect are the same whether or not the channel is closed — the closed flag
is never examined (it is only carried over unchanged). -/
theorem receive_noblock_spec (q : VQueue α) (b : Bool) (hInv : Inv q) :
    (0 < q.len →
      (uchan_receive2_noblock (⟨q, b⟩ : UChan α)).1.1 = nthD q.toList 0 default ∧
      (uchan_receive2_noblock (⟨q, b⟩ : UChan α)).1.2 = true ∧
      (uchan_receive2_noblock (⟨q, b⟩ : UChan α)).2.queue.toList = q.toList.drop 1 ∧
      (uchan_receive2_noblock (⟨q, b⟩ : UChan α)).2.closed = b) ∧
    (q.len = 0 →
      uchan_receive2_noblock (⟨q, b⟩ : UChan α) = ((default, false), ⟨q, b⟩)) ∧
    (uchan_receive2_noblock (⟨q, true⟩ : UChan α)).1 =
      (uchan_receive2_noblock (⟨q, false⟩ : UChan α)).1 ∧
    (uchan_receive2_noblock (⟨q, true⟩ : UChan α)).2.queue =
      (uchan_receive2_noblock (⟨q, false⟩ : UChan α)).2.queue := by
  refine ⟨?_, ?_, ?_, ?_⟩
  · intro hne
    have hemp : vqueue_empty q = false := by
      simp [vqueue_empty]
      omega
    have hg := get_spec q hInv hne
    have hred : uchan_receive2_noblock (⟨q, b⟩ : UChan α) =
        (((vqueue_get q).1, true), ⟨(vqueue_get q).2, b⟩) := by
      unfold uchan_receive2_noblock
      simp [hemp]
    rw [hred]
    exact ⟨get_fst_toList q hInv hne, rfl, hg.2.2.2.1, rfl⟩
  · intro hz
    have hemp : vqueue_empty q = true := by
      simp [vqueue_empty]
      omega
    unfold uchan_receive2_noblock
    simp [hemp]
  · unfold uchan_receive2_noblock
    by_cases hemp : vqueue_empty q
    · simp [hemp]
    · simp [hemp]
  · unfold uchan_receive2_noblock
    by_cases hemp : vqueue_empty q
    · simp [hemp]
    · simp [hemp]

set_option maxRecDepth 40000 in
/-- Witness for C9: the non-blocking receive on a concrete closed channel
holding one element returns that element with true. -/
theorem receive_noblock_spec_witness :
    Inv (⟨512, 1, 0, 1, List.replicate 512 9⟩ : VQueue Nat) ∧
      (0 < (⟨512, 1, 0, 1, List.replicate 512 9⟩ : VQueue Nat).len →
        (uchan_receive2_noblock
            (⟨⟨512, 1, 0, 1, List.replicate 512 9⟩, true⟩ : UChan Nat)).1.1 =
          nthD (⟨512, 1, 0, 1, List.replicate 512 9⟩ : VQueue Nat).toList 0 default ∧
        (uchan_receive2_noblock
            (⟨⟨512, 1, 0, 1, List.replicate 512 9⟩, true⟩ : UChan Nat)).1.2 = true ∧
        (uchan_receive2_noblock
            (⟨⟨512, 1, 0, 1, List.replicate 512 9⟩, true⟩ : UChan Nat)).2.queue.toList =
          (⟨512, 1, 0, 1, List.replicate 512 9⟩ : VQueue Nat).toList.drop 1 ∧
        (uchan_receive2_noblock
            (⟨⟨512, 1, 0, 1, List.replicate 512 9⟩, true⟩ : UChan Nat)).2.closed = true) := by
  refine ⟨by decide, ?_⟩
  exact (receive_noblock_spec (⟨512, 1, 0, 1, List.replicate 512 9⟩ : VQueue Nat)
    true (by decide)).1

/-! ## The countdown (countdown.c)

`Countdown` mirrors `struct Countdown`: the counter `n` is a C11
`atomic_int` — a 32-bit two\'s-complement integer whose atomic arithmetic
wraps around silently — modelled as the signed value in
[-2147483648, 2147483648), with every arithmetic result passed through
`wrap32`. Each adjusting operation returns the new state together with the
broadcast flag: the C code broadcasts exactly when the post-adjustment
count is ≤ 0 (it tests `old ± i <= 0` on the value fetched by the atomic
read-modify-write; that local `int` expression is given the same
two\'s-complement value the hardware produces). `countdown_wait` loops
`while (atomic_load(&c->n) > 0) pthread_cond_wait(...)`, so it blocks at
entry iff the stored count is positive. -/

/-- The smallest value of a 32-bit C `int` (INT_MIN). -/
def INT_MIN32 : Int := -2147483648

/-- Two\'s-complement wrap-around of an arithmetic result into the 32-bit
`int` range [-2147483648, 2147483648). -/
def wrap32 (z : Int) : Int :=
  (z + 2147483648) % 4294967296 - 2147483648

theorem wrap32_eq_self (z : Int) (h1 : INT_MIN32 ≤ z) (h2 : z < 2147483648) :
    wrap32 z = z := by
  unfold wrap32
  unfold INT_MIN32 at h1
  rw [Int.emod_eq_of_lt (by omega) (by omega)]
  omega

structure Countdown where
  n : Int
deriving DecidableEq

/-- `countdown_new` (countdown.c lines 22-31): `require("positive", n > 0)`
panics on a non-positive initial value, before allocating anything; the
`int` argument is stored as given (no arithmetic). -/
def countdown_new (i : Int) : Except String Countdown :=
  if 0 < i then .ok ⟨i⟩ else .error "positive"

/-- `countdown_add` (countdown.c lines 33-40). -/
def countdown_add (c : Countdown) (i : Int) : Countdown × Bool :=
  (⟨wrap32 (c.n + i)⟩, decide (wrap32 (c.n + i) ≤ 0))

/-- `countdown_inc` (countdown.c lines 42-49). -/
def countdown_inc (c : Countdown) : Countdown × Bool :=
  (⟨wrap32 (c.n + 1)⟩, decide (wrap32 (c.n + 1) ≤ 0))

/-- `countdown_sub` (countdown.c lines 51-58). -/
def countdown_sub (c : Countdown) (i : Int) : Countdown × Bool :=
  (⟨wrap32 (c.n - i)⟩, decide (wrap32 (c.n - i) ≤ 0))

/-- `countdown_dec` (countdown.c lines 60-67). -/
def countdown_dec (c : Countdown) : Countdown × Bool :=
  (⟨wrap32 (c.n - 1)⟩, decide (wrap32 (c.n - 1) ≤ 0))

/-- `countdown_set` (countdown.c lines 95-102): stores the `int` argument
as given (no arithmetic, so no wrap). -/
def countdown_set (c : Countdown) (i : Int) : Countdown × Bool :=
  (⟨i⟩, decide (i ≤ 0))

/-- The wait-loop condition of `countdown_wait` (countdown.c line 74):
`countdown_wait` blocks iff the count is positive at entry; when it is not,
the `while` loop is skipped and the call returns immediately. -/
def countdown_wait_blocks (c : Countdown) : Bool :=
  decide (0 < c.n)

/-- `countdown_get` (countdown.c lines 104-107). -/
def countdown_get (c : Countdown) : Int :=
  c.n

/-- `countdown_finished` (countdown.c lines 109-112). -/
def countdown_finished (c : Countdown) : Bool :=
  decide (c.n ≤ 0)

/-- A further adjustment of the countdown: a `dec` or a `sub i`. -/
inductive CdOp where
  | dec
  | sub (i : Int)
deriving DecidableEq

def cdApply (c : Countdown) : CdOp → Countdown × Bool
  | .dec => countdown_dec c
  | .sub i => countdown_sub c i

def cdRun : Countdown → List CdOp → Countdown
  | c, [] => c
  | c, op :: ops => cdRun (cdApply c op).1 ops

/-- All `sub` amounts in the sequence are non-negative. -/
def cdNonnegSubs : List CdOp → Prop
  | [] => True
  | CdOp.dec :: ops => cdNonnegSubs ops
  | CdOp.sub i :: ops => 0 ≤ i ∧ cdNonnegSubs ops

instance : (ops : List CdOp) → Decidable (cdNonnegSubs ops)
  | [] => .isTrue trivial
  | CdOp.dec :: ops =>
    match instDecidableCdNonnegSubs ops with
    | .isTrue h => .isTrue h
    | .isFalse h => .isFalse h
  | CdOp.sub i :: ops =>
    match inferInstanceAs (Decidable (0 ≤ i)), instDecidableCdNonnegSubs ops with
    | .isTrue h1, .isTrue h2 => .isTrue ⟨h1, h2⟩
    | .isFalse h1, _ => .isFalse (fun h => h1 h.1)
    | _, .isFalse h2 => .isFalse (fun h => h2 h.2)

/-- No adjustment in the sequence underflows INT_MIN: at each step the
mathematical post-adjustment count stays ≥ INT_MIN. (For dec and
non-negative sub amounts from a count ≤ 0 the result cannot exceed
INT_MAX either, so under this condition the stored `atomic_int` never
wraps.) -/
def cdNoUnderflow : Countdown → List CdOp → Prop
  | _, [] => True
  | c, CdOp.dec :: ops =>
      INT_MIN32 ≤ c.n - 1 ∧ cdNoUnderflow (countdown_dec c).1 ops
  | c, CdOp.sub i :: ops =>
      INT_MIN32 ≤ c.n - i ∧ cdNoUnderflow (countdown_sub c i).1 ops

instance instDecCdNoUnderflow :
    (c : Countdown) → (ops : List CdOp) → Decidable (cdNoUnderflow c ops)
  | _, [] => .isTrue trivial
  | c, CdOp.dec :: ops =>
    match inferInstanceAs (Decidable (INT_MIN32 ≤ c.n - 1)),
        instDecCdNoUnderflow (countdown_dec c).1 ops with
    | .isTrue h1, .isTrue h2 => .isTrue ⟨h1, h2⟩
    | .isFalse h1, _ => .isFalse (fun h => h1 h.1)
    | _, .isFalse h2 => .isFalse (fun h => h2 h.2)
  | c, CdOp.sub i :: ops =>
    match inferInstanceAs (Decidable (INT_MIN32 ≤ c.n - i)),
        instDecCdNoUnderflow (countdown_sub c i).1 ops with
    | .isTrue h1, .isTrue h2 => .isTrue ⟨h1, h2⟩
    | .isFalse h1, _ => .isFalse (fun h => h1 h.1)
    | _, .isFalse h2 => .isFalse (fun h => h2 h.2)

/-- Counterexample for C8 as stated, two independent failure modes at
concrete states with count ≤ 0: (a) from count = 0 the operation
`countdown_sub c (-1)` — `countdown_sub` takes a C `int`, which may be
negative — stores 1 > 0; (b) from count = INT_MIN (-2147483648), a single
`countdown_dec` wraps the stored atomic_int to INT_MAX = 2147483647 > 0.
In both cases a sub/dec operation does not keep the count ≤ 0 and a
subsequent wait blocks. -/
theorem countdown_quiescence_counterexample :
    ((⟨0⟩ : Countdown).n ≤ 0 ∧
      ¬((countdown_sub (⟨0⟩ : Countdown) (-1)).1.n ≤ 0) ∧
      countdown_wait_blocks (countdown_sub (⟨0⟩ : Countdown) (-1)).1 = true) ∧
    ((⟨-2147483648⟩ : Countdown).n ≤ 0 ∧
      (countdown_dec (⟨-2147483648⟩ : Countdown)).1.n = 2147483647 ∧
      ¬((countdown_dec (⟨-2147483648⟩ : Countdown)).1.n ≤ 0) ∧
      countdown_wait_blocks (countdown_dec (⟨-2147483648⟩ : Countdown)).1 = true) := by
  decide

/-- C8 (amended): for every countdown state whose stored count is a
representable `int` value ≤ 0, wait returns immediately (its wait-loop
condition is false), and this remains true after any further dec
operations and sub operations with non-negative amounts, provided no
adjustment underflows INT_MIN (so the stored atomic_int never wraps):
such operations keep the count ≤ 0; moreover every dec or sub (for any
amount) broadcasts exactly when the post-adjustment stored count is ≤ 0. -/
theorem countdown_quiescence (c : Countdown) (ops : List CdOp)
    (hrep : INT_MIN32 ≤ c.n) (h : c.n ≤ 0)
    (hops : cdNonnegSubs ops) (hund : cdNoUnderflow c ops) :
    countdown_wait_blocks c = false ∧
      (cdRun c ops).n ≤ 0 ∧
      countdown_wait_blocks (cdRun c ops) = false ∧
      (∀ (c2 : Countdown) (op : CdOp),
        ((cdApply c2 op).2 = true ↔ (cdApply c2 op).1.n ≤ 0)) := by
  have hbc : ∀ (c2 : Countdown) (op : CdOp),
      ((cdApply c2 op).2 = true ↔ (cdApply c2 op).1.n ≤ 0) := by
    intro c2 op
    cases op with
    | dec => simp [cdApply, countdown_dec]
    | sub i => simp [cdApply, countdown_sub]
  have hrun : (cdRun c ops).n ≤ 0 := by
    induction ops generalizing c with
    | nil => exact h
    | cons op ops ih =>
      cases op with
      | dec =>
        have h1 : INT_MIN32 ≤ c.n - 1 := hund.1
        have heq : (countdown_dec c).1 = (⟨c.n - 1⟩ : Countdown) := by
          show (⟨wrap32 (c.n - 1)⟩ : Countdown) = _
          rw [wrap32_eq_self _ h1 (by omega)]
        have hund2 : cdNoUnderflow (⟨c.n - 1⟩ : Countdown) ops := heq ▸ hund.2
        show (cdRun (countdown_dec c).1 ops).n ≤ 0
        rw [heq]
        exact ih ⟨c.n - 1⟩ h1 (by show (c.n - 1 : Int) ≤ 0; omega) hops hund2
      | sub i =>
        have hi : (0 : Int) ≤ i := hops.1
        have h1 : INT_MIN32 ≤ c.n - i := hund.1
        have heq : (countdown_sub c i).1 = (⟨c.n - i⟩ : Countdown) := by
          show (⟨wrap32 (c.n - i)⟩ : Countdown) = _
          rw [wrap32_eq_self _ h1 (by omega)]
        have hund2 : cdNoUnderflow (⟨c.n - i⟩ : Countdown) ops := heq ▸ hund.2
        show (cdRun (countdown_sub c i).1 ops).n ≤ 0
        rw [heq]
        exact ih ⟨c.n - i⟩ h1 (by show (c.n - i : Int) ≤ 0; omega) hops.2 hund2
  refine ⟨?_, hrun, ?_, hbc⟩
  · simp [countdown_wait_blocks]
    omega
  · simp [countdown_wait_blocks]
    omega

/-- Witness for C8 (amended): from count = 0 (a representable int ≤ 0),
a dec followed by sub 3 never underflows, keeps the count ≤ 0 and leaves
wait non-blocking. -/
theorem countdown_quiescence_witness :
    INT_MIN32 ≤ (⟨0⟩ : Countdown).n ∧ (⟨0⟩ : Countdown).n ≤ 0 ∧
      cdNonnegSubs [CdOp.dec, CdOp.sub 3] ∧
      cdNoUnderflow (⟨0⟩ : Countdown) [CdOp.dec, CdOp.sub 3] ∧
      (countdown_wait_blocks (⟨0⟩ : Countdown) = false ∧
        (cdRun (⟨0⟩ : Countdown) [CdOp.dec, CdOp.sub 3]).n ≤ 0 ∧
        countdown_wait_blocks (cdRun (⟨0⟩ : Countdown) [CdOp.dec, CdOp.sub 3]) = false ∧
        (∀ (c2 : Countdown) (op : CdOp),
          ((cdApply c2 op).2 = true ↔ (cdApply c2 op).1.n ≤ 0))) :=
  ⟨by decide, by decide, by decide, by decide,
    countdown_quiescence ⟨0⟩ [CdOp.dec, CdOp.sub 3] (by decide) (by decide)
      (by decide) (by decide)⟩

/-- C7: the four contract violations each panic with a diagnostic before
any mutation: send on a closed channel, close of a closed channel, get on
an empty queue, and constructing a Countdown with a non-positive value. In
the embedding the panic is the `Except.error` carrying the diagnostic; the
check precedes every state update (as it does in the C sources), so no
state is returned or mutated. -/
theorem contract_violations_panic (ch : UChan α) (q : VQueue α) (x : α) (i : Int)
    (hc : ch.closed = true) (hq : vqueue_empty q = true) (hi : i ≤ 0) :
    uchan_send ch x = .error "send on closed channel" ∧
      uchan_close ch = .error "close of closed channel" ∧
      vqueue_get_checked q = .error "not empty" ∧
      countdown_new i = .error "positive" := by
  refine ⟨?_, ?_, ?_, ?_⟩
  · unfold uchan_send
    rw [hc]
    rfl
  · unfold uchan_close
    rw [hc]
    rfl
  · unfold vqueue_get_checked
    rw [hq]
    rfl
  · unfold countdown_new
    rw [if_neg (by omega)]

set_option maxRecDepth 40000 in
/-- Witness for C7: the panics at concrete inputs: a closed fresh channel,
a fresh (empty) queue, and the initial value 0. -/
theorem contract_violations_panic_witness :
    (⟨vqueue_new, true⟩ : UChan Nat).closed = true ∧
      vqueue_empty (vqueue_new (α := Nat)) = true ∧
      ((0 : Int) ≤ 0) ∧
      (uchan_send (⟨vqueue_new, true⟩ : UChan Nat) 5 = .error "send on closed channel" ∧
        uchan_close (⟨vqueue_new, true⟩ : UChan Nat) = .error "close of closed channel" ∧
        vqueue_get_checked (vqueue_new (α := Nat)) = .error "not empty" ∧
        countdown_new 0 = .error "positive") :=
  ⟨rfl, by decide, by decide,
    contract_violations_panic (⟨vqueue_new, true⟩ : UChan Nat) vqueue_new 5 0
      rfl (by decide) (by decide)⟩

/-! ## Select, phase A (uchan.c `uchan_select_noblock`, lines 267-282)

`permute_indices` lives in the utility module (not under src/); the scan is
therefore parameterized by the permutation `perm` of [0, N) it produces —
claim C1 quantifies over every permutation anyway. The loop walks the
permutation: at loop position i it looks at channel `perm[i]`, does a
non-blocking receive on it, stores (x, has_value) and, on success,
`return i` — the loop position, exactly as the C source does. -/

def select_noblock_go : List (UChan α) → List Nat → Nat → α → Bool →
    Int × α × Bool × List (UChan α)
  | channels, [], _, x, hv => (-1, x, hv, channels)
  | channels, j :: rest, i, _, _ =>
    let ch := channels.getD j uchan_new
    let r := uchan_receive2_noblock ch
    let channels' := channels.set j r.2
    if r.1.2 then ((i : Int), r.1.1, r.1.2, channels')
    else select_noblock_go channels' rest (i + 1) r.1.1 r.1.2

/-- `uchan_select_noblock` (uchan.c lines 267-282): returns (returned
index, final out-value x, final has_value, updated channels); -1 when no
channel had a value. -/
def uchan_select_noblock (channels : List (UChan α)) (perm : List Nat) :
    Int × α × Bool × List (UChan α) :=
  select_noblock_go channels perm 0 default false

/-- `uchan_select` (uchan.c lines 317-381): phase A first — if the
non-blocking scan returns an index ≥ 0, `uchan_select` returns exactly
that result. Phase B (blocking arbitration with helper threads) is true
concurrency and is not modelled; reaching it yields `none` here. -/
def uchan_select (channels : List (UChan α)) (perm : List Nat) :
    Option (Int × α × Bool × List (UChan α)) :=
  let r := uchan_select_noblock channels perm
  if 0 ≤ r.1 then some r else none

set_option maxRecDepth 40000 in
/-- C1, evaluated at a failing input: two channels, channel 0 empty and
channel 1 holding 42, scanned with the (valid) permutation [1, 0]. The
first channel in permutation order whose non-blocking receive succeeds is
the one with original index 1, and its value 42 is consumed — but
`uchan_select` returns index 0, the loop position in the permutation walk
(`return i` instead of `return indices[i]`), not the original index 1 the
claim requires. The other channel (index 0) is returned untouched. -/
theorem select_noblock_wrong_index :
    uchan_select (α := Nat) [uchan_new, ⟨vqueue_put vqueue_new 42, false⟩] [1, 0] =
      some (0, 42, true,
        [uchan_new, ⟨(vqueue_get (vqueue_put vqueue_new 42)).2, false⟩]) ∧
      (0 : Int) ≠ 1 := by
  decide

end Uchan
